import Mathlib

/-!
Verification of the entropy → mnemonic → seed → extended key → address
pipeline of `src/assignments/address_derivative/src/main.rs`.

The Rust program is a thin orchestrator over library crates (bip39,
tiny-hderive, k256, sha3).  The orchestration in `main` is embedded
directly; the library operations it calls (BIP39 codec, PBKDF2 seed
stretching, BIP32 derivation, secp256k1 key validation and address
hashing) are not part of the repository's sources and are modelled from
the specification's description of them.  The cryptographic primitives
(SHA-256, HMAC-SHA512, Keccak-256, the secp256k1 point operations) are
taken as parameters, bundled in the `Crypto` structure: every theorem
holds for an arbitrary instantiation of them, which matches the spec's
stance that the primitives are assumed correct and not reimplemented.

Bytes are modelled as `Nat` (values < 256 where it matters), byte
strings as `List Nat`, bit strings as `List Bool` (most significant bit
first, as BIP39 packs them).
-/

namespace AddrDeriv

/-- Little-endian bits to a natural number. -/
def lbitsToNat : List Bool → Nat
  | [] => 0
  | b :: bs => (cond b 1 0) + 2 * lbitsToNat bs

/-- The low `k` bits of `n`, little-endian. -/
def natToLbits : Nat → Nat → List Bool
  | 0, _ => []
  | k + 1, n => (n % 2 == 1) :: natToLbits k (n / 2)

/-- Big-endian (most significant bit first) bits to a natural number. -/
def bitsToNat (bs : List Bool) : Nat := lbitsToNat bs.reverse

/-- The low `k` bits of `n`, most significant bit first. -/
def natToBits (k n : Nat) : List Bool := (natToLbits k n).reverse

/-- Big-endian base-256 encoding of `n` on `k` bytes. -/
def natToBytesBE : Nat → Nat → List Nat
  | 0, _ => []
  | k + 1, n => natToBytesBE k (n / 256) ++ [n % 256]

/-- Big-endian bytes to a natural number. -/
def bytesToNatBE (bs : List Nat) : Nat := bs.foldl (fun a b => 256 * a + b) 0

/-- The bytes of an ASCII string. -/
def strBytes (s : String) : List Nat := s.data.map Char.toNat

/-- Split a list into consecutive chunks of size `sz`; the first argument
is fuel bounding the number of steps (callers pass the list's length). -/
def chunksFuel (sz : Nat) : Nat → List α → List (List α)
  | 0, _ => []
  | _ + 1, [] => []
  | fuel + 1, x :: xs => (x :: xs).take sz :: chunksFuel sz fuel ((x :: xs).drop sz)

/-- Split a list into consecutive chunks of size `sz`. -/
def chunks (sz : Nat) (l : List α) : List (List α) := chunksFuel sz l.length l

/-- The pipeline's error taxonomy (spec section 7). -/
inductive PipelineError
  | invalidEntropyLength
  | invalidChecksum
  | invalidWord
  | derivationFailure
  | invalidPrivateKey
  deriving DecidableEq

/-- The cryptographic primitives the program's libraries provide.  The spec
treats them as assumed-correct collaborators, so every theorem below is
stated for an arbitrary bundle: `sha256` and `keccak256` are 32-byte-output
hashes, `hmac512` is HMAC-SHA512 (64-byte output), `pubXY` gives the
secp256k1 public point coordinates (32 bytes each) of a scalar, `serP` its
33-byte compressed serialization, and `wordBytes` the BIP39 wordlist entry
for a word index. -/
structure Crypto where
  sha256 : List Nat → List Nat
  hmac512 : List Nat → List Nat → List Nat
  keccak256 : List Nat → List Nat
  pubXY : Nat → List Nat × List Nat
  serP : Nat → List Nat
  wordBytes : Nat → List Nat

/-- Modelled from the spec: the entropy payload as a bit string, each byte
contributing its 8 bits most significant first (BIP39 packing). -/
def entropyBits (entropy : List Nat) : List Bool := entropy.flatMap (natToBits 8)

/-- Modelled from the spec: the trailing checksum segment, the high
`entropy.length / 4` bits (that is, ENT/32 bits) of SHA-256(entropy). -/
def checksumBits (sha256 : List Nat → List Nat) (entropy : List Nat) : List Bool :=
  ((sha256 entropy).flatMap (natToBits 8)).take (entropy.length / 4)

/-- Modelled from the spec: the mnemonic's word indices — entropy bits plus
checksum bits, cut into 11-bit groups. -/
def encodeWords (sha256 : List Nat → List Nat) (entropy : List Nat) : List Nat :=
  (chunks 11 (entropyBits entropy ++ checksumBits sha256 entropy)).map bitsToNat

/-- The five standardized entropy lengths in bytes (spec section 3). -/
def validEntropyLen (n : Nat) : Bool :=
  n == 16 || n == 20 || n == 24 || n == 28 || n == 32

/-- The word counts corresponding to the five standardized entropy lengths. -/
def validWordCount (n : Nat) : Bool :=
  n == 12 || n == 15 || n == 18 || n == 21 || n == 24

/-- Modelled from the spec: the encoding half of the Mnemonic Codec
(`Mnemonic::generate_in_with` past its entropy sampling) — any entropy
length other than the five standardized values is an input-contract
violation `InvalidEntropyLength` (spec 4.2). -/
def from_entropy (sha256 : List Nat → List Nat) (entropy : List Nat) :
    Except PipelineError (List Nat) :=
  if validEntropyLen entropy.length then .ok (encodeWords sha256 entropy)
  else .error .invalidEntropyLength

/-- Modelled from the spec: `to_entropy(mnemonic)` — the inverse mapping,
failing with `InvalidWord` when a word is outside the 2048-word list and
`InvalidChecksum` when the embedded checksum does not match (spec 4.2). -/
def to_entropy (sha256 : List Nat → List Nat) (words : List Nat) :
    Except PipelineError (List Nat) :=
  if words.all (fun w => w < 2048) then
    if validWordCount words.length then
      let bits := words.flatMap (natToBits 11)
      let entBitLen := words.length / 3 * 32
      let entropy := (chunks 8 (bits.take entBitLen)).map bitsToNat
      if bits.drop entBitLen = checksumBits sha256 entropy then .ok entropy
      else .error .invalidChecksum
    else .error .invalidEntropyLength
  else .error .invalidWord

/-- Byte-wise xor of two byte strings. -/
def xorBytes (a b : List Nat) : List Nat := List.zipWith Nat.xor a b

/-- Modelled from the spec: the iterated PRF chain of one PBKDF2 block —
`pbkdf2Loop prf pw j u acc` applies the PRF `j` more times starting from
`u`, xor-accumulating every output into `acc`. -/
def pbkdf2Loop (prf : List Nat → List Nat → List Nat) (password : List Nat) :
    Nat → List Nat → List Nat → List Nat
  | 0, _, acc => acc
  | j + 1, u, acc =>
    let u2 := prf password u
    pbkdf2Loop prf password j u2 (xorBytes acc u2)

/-- Modelled from the spec: PBKDF2 block i, the xor of the `c` chained PRF
outputs seeded with `salt ++ INT_32_BE(i)`. -/
def pbkdf2Block (prf : List Nat → List Nat → List Nat)
    (password salt : List Nat) (c i : Nat) : List Nat :=
  let u1 := prf password (salt ++ natToBytesBE 4 i)
  pbkdf2Loop prf password (c - 1) u1 u1

/-- Modelled from the spec: PBKDF2 over a 64-byte-output PRF (HMAC-SHA512),
concatenating blocks and truncating to `dkLen` bytes. -/
def pbkdf2 (prf : List Nat → List Nat → List Nat)
    (password salt : List Nat) (c dkLen : Nat) : List Nat :=
  ((List.range ((dkLen + 63) / 64)).flatMap
    fun i => pbkdf2Block prf password salt c (i + 1)).take dkLen

/-- Modelled from the spec: `to_seed(mnemonic, passphrase)` — deterministic
password-based key stretching, PBKDF2-class with HMAC-SHA512, 2048 rounds,
salt `"mnemonic" ++ passphrase`, 64-byte output (spec 4.2, section 3). -/
def to_seed (hmac512 : List Nat → List Nat → List Nat)
    (phrase passphrase : List Nat) : List Nat :=
  pbkdf2 hmac512 phrase (strBytes "mnemonic" ++ passphrase) 2048 64

/-- The secp256k1 group order n. -/
def secpOrder : Nat :=
  0xFFFFFFFFFFFFFFFFFFFFFFFFFFFFFFFEBAAEDCE6AF48A03BBFD25E8CD0364141

/-- Split a 64-byte HMAC-SHA512 output into (key scalar IL, chain code IR). -/
def splitKey (out : List Nat) : Nat × List Nat :=
  (bytesToNatBE (out.take 32), out.drop 32)

/-- Modelled from the spec: one BIP32 child-derivation step (spec 4.3).
Hardened indices (at least 2^31) key the HMAC data with
`0x00 || k_parent || index`, others with `serP(k_parent) || index`; a
degenerate intermediate scalar — IL zero or at least the curve order —
fails with `DerivationFailure` as the spec mandates must be checked;
otherwise the child scalar is `(IL + k_parent) mod n` and the child chain
code is IR. -/
def ckd (hmac512 : List Nat → List Nat → List Nat) (serP : Nat → List Nat)
    (parent : Nat × List Nat) (index : Nat) : Except PipelineError (Nat × List Nat) :=
  let data :=
    if 2 ^ 31 ≤ index then 0 :: (natToBytesBE 32 parent.1 ++ natToBytesBE 4 index)
    else serP parent.1 ++ natToBytesBE 4 index
  let out := hmac512 parent.2 data
  if (splitKey out).1 = 0 ∨ secpOrder ≤ (splitKey out).1 then
    .error .derivationFailure
  else .ok (((splitKey out).1 + parent.1) % secpOrder, (splitKey out).2)

/-- Modelled from the spec: the master key pair (k0, c0), the split of
HMAC-SHA512(key="Bitcoin seed", data=seed) (spec 4.3). -/
def masterKey (hmac512 : List Nat → List Nat → List Nat) (seed : List Nat) :
    Nat × List Nat :=
  splitKey (hmac512 (strBytes "Bitcoin seed") seed)

/-- Split a character list at every occurrence of `sep`. -/
def splitChar (sep : Char) : List Char → List (List Char)
  | [] => [[]]
  | c :: cs =>
    let rest := splitChar sep cs
    if c = sep then [] :: rest
    else (c :: rest.headD []) :: rest.tail

/-- The value of a non-empty decimal digit sequence, `none` otherwise. -/
def parseDecimal (cs : List Char) : Option Nat :=
  if !cs.isEmpty && cs.all Char.isDigit then
    some (cs.foldl (fun a ch => 10 * a + (ch.toNat - 48)) 0)
  else none

/-- An unsigned 31-bit raw index (spec 4.3). -/
def parseIndex (cs : List Char) : Option Nat :=
  (parseDecimal cs).bind fun n => if n < 2 ^ 31 then some n else none

/-- The apostrophe that marks a hardened path segment. -/
def hardMark : Char := '\''

/-- Modelled from the spec: one path segment — an unsigned 31-bit index,
optionally suffixed with an apostrophe; hardened segments add 2^31 to the
raw index (spec 4.3). -/
def parseSegment (cs : List Char) : Option Nat :=
  if cs.getLast? = some hardMark then (parseIndex cs.dropLast).map (· + 2 ^ 31)
  else parseIndex cs

/-- `mapOption f l` applies `f` to every element, `none` as soon as one
application fails. -/
def mapOption (f : α → Option β) : List α → Option (List β)
  | [] => some []
  | a :: as => (f a).bind fun b => (mapOption f as).map (b :: ·)

/-- Modelled from the spec: path syntax — `m` followed by `/`-separated
segments (spec 4.3). -/
def parsePath (s : String) : Option (List Nat) :=
  match splitChar '/' s.data with
  | seg0 :: segs => if seg0 = ['m'] then mapOption parseSegment segs else none
  | [] => none

/-- Modelled from the spec: the left-to-right walk of the child steps over
the parsed indices, stopping at the first failing step (spec 4.3). -/
def deriveSteps (hmac512 : List Nat → List Nat → List Nat) (serP : Nat → List Nat) :
    List Nat → Nat × List Nat → Except PipelineError (Nat × List Nat)
  | [], parent => .ok parent
  | i :: is, parent =>
    (ckd hmac512 serP parent i).bind fun child => deriveSteps hmac512 serP is child

/-- Modelled from the spec: `derive(seed, path)` (spec 4.3) — an invalid
path fails before any child step runs; otherwise start from the master
pair and apply the child steps strictly left-to-right, a degenerate scalar
in any step surfacing as `DerivationFailure` and ending the walk. -/
def derive (hmac512 : List Nat → List Nat → List Nat) (serP : Nat → List Nat)
    (seed : List Nat) (path : String) : Except PipelineError (Nat × List Nat) :=
  match parsePath path with
  | none => .error .derivationFailure
  | some idxs => deriveSteps hmac512 serP idxs (masterKey hmac512 seed)

/-- The lowercase hex digit of a value below 16, as `hex::encode` writes it. -/
def hexDigit (n : Nat) : Char :=
  if n < 10 then Char.ofNat (48 + n) else Char.ofNat (87 + n)

/-- The lowercase hex characters of a byte string, two per byte. -/
def hexChars (bs : List Nat) : List Char :=
  bs.flatMap fun b => [hexDigit (b / 16), hexDigit (b % 16)]

/-- `hex::encode` of a byte string. -/
def hexEncode (bs : List Nat) : String := String.mk (hexChars bs)

/-- Modelled from the spec: the 65-byte uncompressed SEC1 encoding of the
public point of scalar `k` — format byte 0x04, then X and Y (spec
section 3). -/
def uncompressedPoint (pubXY : Nat → List Nat × List Nat) (k : Nat) : List Nat :=
  4 :: ((pubXY k).1 ++ (pubXY k).2)

/-- The Address Encoder, embedding `main.rs` lines 34-45: validate the
scalar (`SigningKey::from_slice`, which the spec models as rejecting zero
and out-of-range scalars with `InvalidPrivateKey`), serialize the public
point uncompressed, drop the leading format byte, Keccak-256 the remaining
64 bytes, keep the digest from byte 12 on, and hex-encode after `0x`. -/
def toAddress (c : Crypto) (k : Nat) : Except PipelineError String :=
  if k = 0 ∨ secpOrder ≤ k then .error .invalidPrivateKey
  else .ok ("0x" ++ hexEncode ((c.keccak256 ((uncompressedPoint c.pubXY k).drop 1)).drop 12))

/-- The derivation path hardcoded at `main.rs` line 32. -/
def ethPath : String := "m/44'/60'/0'/0/0"

/-- The mnemonic phrase as bytes: the words of the fixed wordlist joined by
single spaces, the text `to_seed` stretches. -/
def phraseBytes (c : Crypto) (words : List Nat) : List Nat :=
  List.intercalate [32] (words.map c.wordBytes)

/-- The derivation stage of the pipeline (`main.rs` line 32): the path walk
over the hardcoded path, an unparseable path or a degenerate scalar
surfacing as `DerivationFailure`. -/
def deriveChild (c : Crypto) (seed : List Nat) : Except PipelineError (Nat × List Nat) :=
  derive c.hmac512 c.serP seed ethPath

/-- The 12 bytes `main.rs` lines 17-18 draw from the OS and print as
`Entropy:`.  `stream` is the OS randomness source, byte `i` of it feeding
the i-th byte the program requests. -/
def printedEntropy (stream : Nat → Nat) : List Nat :=
  (List.range 12).map fun i => stream i % 256

/-- The 16 entropy bytes `Mnemonic::generate_in_with` draws at `main.rs`
line 21 for a 12-word mnemonic — the next 16 bytes of the OS stream after
the 12 already consumed. -/
def sampledEntropy (stream : Nat → Nat) : List Nat :=
  (List.range 16).map fun i => stream (12 + i) % 256

/-- Everything one run of `main` computes. -/
structure RunOutput where
  printed : List Nat
  words : List Nat
  entropyHex : List Nat
  seed : List Nat
  childKey : Nat × List Nat
  address : String

/-- The pipeline of `main.rs` lines 21-45 from the drawn bytes on: encode
the mnemonic, decode its entropy for the `Entropy (hex)` line, stretch the
seed with the empty passphrase, derive `m/44'/60'/0'/0/0`, encode the
address.  Every stage's failure propagates as the run's result. -/
def runFrom (c : Crypto) (printed entropy : List Nat) : Except PipelineError RunOutput :=
  match from_entropy c.sha256 entropy with
  | .error e => .error e
  | .ok words =>
    match to_entropy c.sha256 words with
    | .error e => .error e
    | .ok entropyHex =>
      let seed := to_seed c.hmac512 (phraseBytes c words) []
      match deriveChild c seed with
      | .error e => .error e
      | .ok child =>
        match toAddress c child.1 with
        | .error e => .error e
        | .ok address => .ok ⟨printed, words, entropyHex, seed, child, address⟩

/-- One run of `main` against the OS randomness stream: lines 17-18 consume
the first 12 bytes, line 21 the next 16, and the rest of the program is a
pure function of those. -/
def runPipeline (c : Crypto) (stream : Nat → Nat) : Except PipelineError RunOutput :=
  runFrom c (printedEntropy stream) (sampledEntropy stream)

/-- The address as a function of the mnemonic words alone: stretch with the
empty passphrase, derive the hardcoded path, encode. -/
def addressFromWords (c : Crypto) (words : List Nat) : Except PipelineError String :=
  match deriveChild c (to_seed c.hmac512 (phraseBytes c words) []) with
  | .error e => .error e
  | .ok kc => toAddress c kc.1

/-- A stream reading `pre` below the cut and `post` from it on. -/
def splice (cut : Nat) (pre post : Nat → Nat) : Nat → Nat :=
  fun i => if i < cut then pre i else post i

/-- A lowercase hexadecimal character: a decimal digit or `a`-`f`. -/
def isLowerHex (ch : Char) : Bool :=
  (48 ≤ ch.toNat && ch.toNat ≤ 57) || (97 ≤ ch.toNat && ch.toNat ≤ 102)

/-- A concrete primitive bundle used to instantiate the theorems'
hypotheses at witness inputs. -/
def testCrypto : Crypto where
  sha256 := fun _ => List.range 32
  hmac512 := fun _ _ => List.range 64
  keccak256 := fun _ => List.range 32
  pubXY := fun _ => (List.replicate 32 1, List.replicate 32 2)
  serP := fun _ => List.replicate 33 3
  wordBytes := fun _ => [97]

theorem length_natToLbits (k n : Nat) : (natToLbits k n).length = k := by
  induction k generalizing n with
  | zero => rfl
  | succ k ih => simp [natToLbits, ih]

theorem length_natToBits (k n : Nat) : (natToBits k n).length = k := by
  simp [natToBits, length_natToLbits]

theorem lbitsToNat_lt (bs : List Bool) : lbitsToNat bs < 2 ^ bs.length := by
  induction bs with
  | nil => simp [lbitsToNat]
  | cons b bs ih =>
    simp only [lbitsToNat, List.length_cons, pow_succ]
    cases b <;> simp <;> omega

theorem natToLbits_lbitsToNat (bs : List Bool) :
    natToLbits bs.length (lbitsToNat bs) = bs := by
  induction bs with
  | nil => rfl
  | cons b bs ih =>
    simp only [List.length_cons, natToLbits, lbitsToNat]
    have hdiv : ((cond b 1 0) + 2 * lbitsToNat bs) / 2 = lbitsToNat bs := by
      cases b <;> simp
      omega
    have hmod : (((cond b 1 0) + 2 * lbitsToNat bs) % 2 == 1) = b := by
      cases b <;> simp [Nat.add_mul_mod_self_left]
    rw [hdiv, hmod, ih]

theorem lbitsToNat_natToLbits (k n : Nat) (h : n < 2 ^ k) :
    lbitsToNat (natToLbits k n) = n := by
  induction k generalizing n with
  | zero =>
    simp only [pow_zero, Nat.lt_one_iff] at h
    simp [natToLbits, lbitsToNat, h]
  | succ k ih =>
    simp only [natToLbits, lbitsToNat]
    have hlt : n / 2 < 2 ^ k := by
      rw [pow_succ] at h; omega
    rw [ih (n / 2) hlt]
    rcases Nat.mod_two_eq_zero_or_one n with h2 | h2 <;> simp [h2] <;>
      omega

theorem bitsToNat_lt (bs : List Bool) : bitsToNat bs < 2 ^ bs.length := by
  simpa [bitsToNat] using lbitsToNat_lt bs.reverse

theorem natToBits_bitsToNat (bs : List Bool) :
    natToBits bs.length (bitsToNat bs) = bs := by
  have := natToLbits_lbitsToNat bs.reverse
  simp only [List.length_reverse] at this
  simp [natToBits, bitsToNat, this]

theorem bitsToNat_natToBits (k n : Nat) (h : n < 2 ^ k) :
    bitsToNat (natToBits k n) = n := by
  simp [bitsToNat, natToBits, lbitsToNat_natToLbits k n h]

theorem chunksFuel_nil (sz fuel : Nat) : chunksFuel sz fuel ([] : List α) = [] := by
  cases fuel <;> rfl

theorem chunksFuel_cons_eq (sz fuel : Nat) (l : List α) (hl : l ≠ []) :
    chunksFuel sz (fuel + 1) l = l.take sz :: chunksFuel sz fuel (l.drop sz) := by
  cases l with
  | nil => exact absurd rfl hl
  | cons x xs => rfl

theorem flatten_chunksFuel (sz : Nat) (hsz : 0 < sz) :
    ∀ (fuel : Nat) (l : List α), l.length ≤ fuel → (chunksFuel sz fuel l).flatten = l := by
  intro fuel
  induction fuel with
  | zero =>
    intro l hl
    have : l = [] := List.eq_nil_of_length_eq_zero (by omega)
    subst this; rfl
  | succ fuel ih =>
    intro l hl
    cases l with
    | nil => rfl
    | cons x xs =>
      rw [chunksFuel_cons_eq sz fuel _ (by simp), List.flatten_cons,
        ih _ (by simp only [List.length_drop, List.length_cons] at *; omega)]
      exact List.take_append_drop sz (x :: xs)

theorem length_mem_chunksFuel (sz : Nat) (hsz : 0 < sz) :
    ∀ (fuel : Nat) (l : List α), l.length ≤ fuel → sz ∣ l.length →
      ∀ c ∈ chunksFuel sz fuel l, c.length = sz := by
  intro fuel
  induction fuel with
  | zero =>
    intro l hl _ c hc
    have : l = [] := List.eq_nil_of_length_eq_zero (by omega)
    subst this; simp [chunksFuel_nil] at hc
  | succ fuel ih =>
    intro l hl hdvd c hc
    cases l with
    | nil => simp [chunksFuel_nil] at hc
    | cons x xs =>
      have hge : sz ≤ (x :: xs).length := Nat.le_of_dvd (by simp) hdvd
      rw [chunksFuel_cons_eq sz fuel _ (by simp)] at hc
      rcases List.mem_cons.mp hc with rfl | hc
      · simp only [List.length_take]
        omega
      · refine ih _ ?_ ?_ c hc
        · simp only [List.length_drop, List.length_cons] at *; omega
        · rw [List.length_drop]
          exact Nat.dvd_sub' hdvd dvd_rfl

theorem length_chunksFuel_mul (sz : Nat) (hsz : 0 < sz) :
    ∀ (fuel : Nat) (l : List α), l.length ≤ fuel → sz ∣ l.length →
      (chunksFuel sz fuel l).length * sz = l.length := by
  intro fuel
  induction fuel with
  | zero =>
    intro l hl _
    have : l = [] := List.eq_nil_of_length_eq_zero (by omega)
    subst this; simp [chunksFuel_nil]
  | succ fuel ih =>
    intro l hl hdvd
    cases l with
    | nil => simp [chunksFuel_nil]
    | cons x xs =>
      have hge : sz ≤ (x :: xs).length := Nat.le_of_dvd (by simp) hdvd
      rw [chunksFuel_cons_eq sz fuel _ (by simp)]
      have hrec := ih ((x :: xs).drop sz)
        (by simp only [List.length_drop, List.length_cons] at hl ⊢; omega)
        (by rw [List.length_drop]; exact Nat.dvd_sub' hdvd dvd_rfl)
      simp only [List.length_drop, List.length_cons] at hrec hge
      simp only [List.length_cons, Nat.add_mul, one_mul]
      omega

theorem chunksFuel_flatten (sz : Nat) (hsz : 0 < sz) :
    ∀ (fuel : Nat) (ls : List (List α)), (∀ c ∈ ls, c.length = sz) →
      ls.length * sz ≤ fuel → chunksFuel sz fuel ls.flatten = ls := by
  intro fuel ls
  induction ls generalizing fuel with
  | nil => intro _ _; simp [chunksFuel_nil]
  | cons c rest ih =>
    intro hlen hfuel
    have hc : c.length = sz := hlen c (by simp)
    cases fuel with
    | zero =>
      exfalso
      simp only [List.length_cons, Nat.add_mul, one_mul] at hfuel
      omega
    | succ fuel =>
      have hne : c ++ rest.flatten ≠ [] := by
        cases c with
        | nil => simp at hc; omega
        | cons y ys => simp
      rw [List.flatten_cons, chunksFuel_cons_eq sz fuel _ hne,
        List.take_left' hc, List.drop_left' hc]
      rw [ih fuel (fun d hd => hlen d (by simp [hd]))
        (by simp only [List.length_cons, Nat.add_mul, one_mul] at hfuel; omega)]

theorem flatMap_eq_flatten_map (f : α → List β) (l : List α) :
    l.flatMap f = (l.map f).flatten := by
  induction l with
  | nil => rfl
  | cons a as ih => simp [ih]

theorem length_flatMap_uniform (f : α → List β) (k : Nat) (l : List α)
    (h : ∀ a ∈ l, (f a).length = k) : (l.flatMap f).length = l.length * k := by
  induction l with
  | nil => simp
  | cons a as ih =>
    simp only [List.flatMap_cons, List.length_append, h a (by simp),
      ih (fun a ha => h a (by simp [ha])), List.length_cons]
    rw [Nat.succ_mul]
    omega

theorem flatten_eq_flatMap_self (ls : List (List α)) :
    ls.flatMap (fun c => c) = ls.flatten := by
  induction ls with
  | nil => rfl
  | cons c cs ih => simp [ih]

theorem flatMap_of_map (f : α → β) (g : β → List γ) (l : List α) :
    (l.map f).flatMap g = l.flatMap fun a => g (f a) := by
  induction l with
  | nil => rfl
  | cons a as ih => simp [ih]

theorem flatten_chunks (sz : Nat) (hsz : 0 < sz) (l : List α) :
    (chunks sz l).flatten = l :=
  flatten_chunksFuel sz hsz l.length l le_rfl

theorem length_mem_chunks (sz : Nat) (hsz : 0 < sz) (l : List α)
    (hdvd : sz ∣ l.length) : ∀ c ∈ chunks sz l, c.length = sz :=
  length_mem_chunksFuel sz hsz l.length l le_rfl hdvd

theorem length_chunks_mul (sz : Nat) (hsz : 0 < sz) (l : List α)
    (hdvd : sz ∣ l.length) : (chunks sz l).length * sz = l.length :=
  length_chunksFuel_mul sz hsz l.length l le_rfl hdvd

theorem chunks_flatten (sz : Nat) (hsz : 0 < sz) (ls : List (List α))
    (h : ∀ c ∈ ls, c.length = sz) : chunks sz ls.flatten = ls := by
  have hlen : ls.flatten.length = ls.length * sz := by
    rw [← flatten_eq_flatMap_self]
    exact length_flatMap_uniform _ sz _ h
  exact chunksFuel_flatten sz hsz _ ls h (by rw [hlen])

theorem flatMap_congr (l : List α) (f g : α → List β)
    (h : ∀ a ∈ l, f a = g a) : l.flatMap f = l.flatMap g := by
  induction l with
  | nil => rfl
  | cons a as ih =>
    simp only [List.flatMap_cons, h a (by simp)]
    rw [ih fun a ha => h a (by simp [ha])]

/-- The word-count arithmetic behind the round trip: a standardized entropy
length of L bytes gives 8L + L/4 bits, hence (8L + L/4)/11 words, which is
a standardized word count whose implied entropy bit length is 8L again. -/
theorem roundtrip_arith (L W : Nat) (hL : validEntropyLen L = true)
    (hW : W * 11 = L * 8 + L / 4) :
    validWordCount W = true ∧ W / 3 * 32 = L * 8 := by
  have h5 : L = 16 ∨ L = 20 ∨ L = 24 ∨ L = 28 ∨ L = 32 := by
    have := hL
    simp only [validEntropyLen, Bool.or_eq_true, beq_iff_eq] at this
    tauto
  rcases h5 with h | h | h | h | h <;> subst h
  · have hw : W = 12 := by omega
    subst hw; exact ⟨rfl, rfl⟩
  · have hw : W = 15 := by omega
    subst hw; exact ⟨rfl, rfl⟩
  · have hw : W = 18 := by omega
    subst hw; exact ⟨rfl, rfl⟩
  · have hw : W = 21 := by omega
    subst hw; exact ⟨rfl, rfl⟩
  · have hw : W = 24 := by omega
    subst hw; exact ⟨rfl, rfl⟩

theorem div_arith (L : Nat) (hL : validEntropyLen L = true) :
    L / 4 ≤ 256 ∧ 11 ∣ (L * 8 + L / 4) := by
  have h5 : L = 16 ∨ L = 20 ∨ L = 24 ∨ L = 28 ∨ L = 32 := by
    have := hL
    simp only [validEntropyLen, Bool.or_eq_true, beq_iff_eq] at this
    tauto
  rcases h5 with h | h | h | h | h <;> subst h <;> exact ⟨by omega, by decide⟩

/-- C3: for all valid entropy lengths L in {16,20,24,28,32} bytes, decoding
the mnemonic generated from entropy of length L returns exactly that
entropy — `from_entropy` succeeds with the encoded words, and `to_entropy`
of those words is the original entropy. -/
theorem c3_mnemonic_roundtrip (sha256 : List Nat → List Nat) (entropy : List Nat)
    (hb : ∀ b ∈ entropy, b < 256) (hsha : (sha256 entropy).length = 32)
    (hL : validEntropyLen entropy.length = true) :
    from_entropy sha256 entropy = Except.ok (encodeWords sha256 entropy) ∧
    to_entropy sha256 (encodeWords sha256 entropy) = Except.ok entropy := by
  obtain ⟨hdiv4, hdvd⟩ := div_arith entropy.length hL
  have hEB : (entropyBits entropy).length = entropy.length * 8 :=
    length_flatMap_uniform _ 8 _ (fun b _ => length_natToBits 8 b)
  have hCB : (checksumBits sha256 entropy).length = entropy.length / 4 := by
    rw [checksumBits, List.length_take,
      length_flatMap_uniform _ 8 _ (fun b _ => length_natToBits 8 b), hsha]
    omega
  have hbits : (entropyBits entropy ++ checksumBits sha256 entropy).length =
      entropy.length * 8 + entropy.length / 4 := by
    rw [List.length_append, hEB, hCB]
  have hdvd2 : 11 ∣ (entropyBits entropy ++ checksumBits sha256 entropy).length := by
    rw [hbits]; exact hdvd
  constructor
  · simp [from_entropy, hL]
  · have hmem : ∀ c ∈ chunks 11 (entropyBits entropy ++ checksumBits sha256 entropy),
        c.length = 11 := length_mem_chunks 11 (by omega) _ hdvd2
    have hWmul := length_chunks_mul 11 (by omega) _ hdvd2
    have hW : (encodeWords sha256 entropy).length * 11 =
        entropy.length * 8 + entropy.length / 4 := by
      rw [encodeWords, List.length_map, hWmul, hbits]
    obtain ⟨hvc, hent⟩ := roundtrip_arith _ _ hL hW
    have hall2 : (encodeWords sha256 entropy).all (fun w => w < 2048) = true := by
      rw [List.all_eq_true]
      intro w hw
      rw [encodeWords] at hw
      rcases List.mem_map.mp hw with ⟨c, hcmem, rfl⟩
      have hc11 := hmem c hcmem
      have hlt := bitsToNat_lt c
      rw [hc11] at hlt
      exact decide_eq_true (lt_of_lt_of_le hlt (by norm_num))
    have hflat : (encodeWords sha256 entropy).flatMap (natToBits 11) =
        entropyBits entropy ++ checksumBits sha256 entropy := by
      rw [encodeWords, flatMap_of_map]
      have hcongr : ∀ c ∈ chunks 11 (entropyBits entropy ++ checksumBits sha256 entropy),
          natToBits 11 (bitsToNat c) = c := by
        intro c hc
        have h11 := hmem c hc
        conv_rhs => rw [← natToBits_bitsToNat c]
        rw [h11]
      rw [flatMap_congr _ _ _ hcongr, flatten_eq_flatMap_self,
        flatten_chunks 11 (by omega)]
    have hdecode : (chunks 8 (entropyBits entropy)).map bitsToNat = entropy := by
      rw [entropyBits, flatMap_eq_flatten_map,
        chunks_flatten 8 (by omega) _ (by
          intro c hc
          rcases List.mem_map.mp hc with ⟨b, _, rfl⟩
          exact length_natToBits 8 b),
        List.map_map]
      have : ∀ b ∈ entropy, (bitsToNat ∘ natToBits 8) b = b := by
        intro b hbm
        exact bitsToNat_natToBits 8 b (lt_of_lt_of_le (hb b hbm) (by norm_num))
      rw [List.map_congr_left this, List.map_id']
    simp only [to_entropy, hall2, hvc, eq_self_iff_true, if_true]
    rw [hflat, hent, List.take_left' hEB, List.drop_left' hEB, hdecode]
    simp

/-- Witness for C3: entropy of 16 zero bytes under a concrete 32-byte hash. -/
theorem c3_witness :
    (∀ b ∈ List.replicate 16 0, b < 256) ∧
    ((fun _ : List Nat => List.range 32) (List.replicate 16 0)).length = 32 ∧
    validEntropyLen (List.replicate 16 (0 : Nat)).length = true ∧
    (from_entropy (fun _ => List.range 32) (List.replicate 16 0) =
        Except.ok (encodeWords (fun _ => List.range 32) (List.replicate 16 0)) ∧
      to_entropy (fun _ => List.range 32)
          (encodeWords (fun _ => List.range 32) (List.replicate 16 0)) =
        Except.ok (List.replicate 16 0)) :=
  ⟨by decide, rfl, rfl,
    c3_mnemonic_roundtrip (fun _ => List.range 32) (List.replicate 16 0)
      (by decide) rfl rfl⟩

theorem except_bind_ok (x : Except ε α) : x.bind Except.ok = x := by
  cases x <;> rfl

/-- C4: for every 64-byte seed, `derive(seed, "m/44'/60'/0'/0/0")` starts
from the master pair — the split of HMAC-SHA512(key="Bitcoin seed",
data=seed) — and applies the five segments strictly left-to-right, the
hardened segments as raw index + 2^31 and the non-hardened ones as the raw
index, each step the fallible `ckd` child-derivation (child scalar
(IL + k_parent) mod n and chain code IR from the HMAC-SHA512 split,
`DerivationFailure` on a degenerate IL), a failing step propagating so no
later step runs. -/
theorem c4_derive_path (hmac512 : List Nat → List Nat → List Nat)
    (serP : Nat → List Nat) (seed : List Nat) :
    parsePath ethPath = some [2 ^ 31 + 44, 2 ^ 31 + 60, 2 ^ 31 + 0, 0, 0] ∧
    masterKey hmac512 seed = splitKey (hmac512 (strBytes "Bitcoin seed") seed) ∧
    derive hmac512 serP seed ethPath =
      ((ckd hmac512 serP (masterKey hmac512 seed) (2 ^ 31 + 44)).bind fun p1 =>
        (ckd hmac512 serP p1 (2 ^ 31 + 60)).bind fun p2 =>
          (ckd hmac512 serP p2 (2 ^ 31 + 0)).bind fun p3 =>
            (ckd hmac512 serP p3 0).bind fun p4 =>
              ckd hmac512 serP p4 0) := by
  have hp : parsePath ethPath = some [2 ^ 31 + 44, 2 ^ 31 + 60, 2 ^ 31 + 0, 0, 0] := by
    decide
  refine ⟨hp, rfl, ?_⟩
  rw [derive, hp]
  simp only [deriveSteps, except_bind_ok]

theorem length_xorBytes (a b : List Nat) :
    (xorBytes a b).length = min a.length b.length := by
  simp [xorBytes]

theorem length_pbkdf2Loop (prf : List Nat → List Nat → List Nat)
    (password : List Nat) (h64 : ∀ key data, (prf key data).length = 64) :
    ∀ (j : Nat) (u acc : List Nat), acc.length = 64 →
      (pbkdf2Loop prf password j u acc).length = 64 := by
  intro j
  induction j with
  | zero => intro u acc hacc; exact hacc
  | succ j ih =>
    intro u acc hacc
    rw [pbkdf2Loop]
    exact ih _ _ (by rw [length_xorBytes, hacc, h64]; rfl)

theorem length_pbkdf2Block (prf : List Nat → List Nat → List Nat)
    (password salt : List Nat) (c i : Nat)
    (h64 : ∀ key data, (prf key data).length = 64) :
    (pbkdf2Block prf password salt c i).length = 64 := by
  rw [pbkdf2Block]
  exact length_pbkdf2Loop prf password h64 _ _ _ (h64 _ _)

/-- C5: `to_seed(mnemonic, passphrase)` is a 64-byte seed computed by the
PBKDF2 construction over HMAC-SHA512 with exactly 2048 iterations and salt
"mnemonic" ++ passphrase; the program's call with the empty passphrase uses
the salt "mnemonic" itself. -/
theorem c5_to_seed (hmac512 : List Nat → List Nat → List Nat)
    (phrase passphrase : List Nat)
    (h64 : ∀ key data, (hmac512 key data).length = 64) :
    (to_seed hmac512 phrase passphrase).length = 64 ∧
    to_seed hmac512 phrase passphrase =
      pbkdf2 hmac512 phrase (strBytes "mnemonic" ++ passphrase) 2048 64 ∧
    to_seed hmac512 phrase [] = pbkdf2 hmac512 phrase (strBytes "mnemonic") 2048 64 := by
  refine ⟨?_, rfl, by rw [to_seed, List.append_nil]⟩
  rw [to_seed, pbkdf2]
  simp only [show (64 + 63) / 64 = 1 from rfl, show List.range 1 = [0] by decide,
    List.flatMap_cons, List.flatMap_nil, List.append_nil, List.length_take]
  rw [length_pbkdf2Block hmac512 _ _ _ _ h64]
  rfl

/-- Witness for C5 at a concrete 64-byte PRF, phrase and passphrase. -/
theorem c5_witness :
    (∀ key data, (testCrypto.hmac512 key data).length = 64) ∧
    ((to_seed testCrypto.hmac512 [97] [98]).length = 64 ∧
      to_seed testCrypto.hmac512 [97] [98] =
        pbkdf2 testCrypto.hmac512 [97] (strBytes "mnemonic" ++ [98]) 2048 64 ∧
      to_seed testCrypto.hmac512 [97] [] =
        pbkdf2 testCrypto.hmac512 [97] (strBytes "mnemonic") 2048 64) :=
  ⟨fun _ _ => rfl, c5_to_seed testCrypto.hmac512 [97] [98] (fun _ _ => rfl)⟩

/-- C7: the Address Encoder rejects exactly the all-zero scalar and the
scalars at or above the secp256k1 order with `InvalidPrivateKey`, producing
no address; every in-range non-zero scalar passes validation and yields an
address. -/
theorem c7_private_key_validation (c : Crypto) (k : Nat) :
    (toAddress c k = Except.error PipelineError.invalidPrivateKey ↔
      k = 0 ∨ secpOrder ≤ k) ∧
    ((∃ a, toAddress c k = Except.ok a) ↔ 0 < k ∧ k < secpOrder) := by
  by_cases h : k = 0 ∨ secpOrder ≤ k
  · rw [toAddress, if_pos h]
    refine ⟨⟨fun _ => h, fun _ => rfl⟩, ?_, ?_⟩
    · rintro ⟨a, ha⟩
      exact absurd ha (by simp)
    · intro hk
      omega
  · rw [toAddress, if_neg h]
    push_neg at h
    refine ⟨⟨fun hE => absurd hE (by simp), fun hh => absurd hh ?_⟩,
      fun _ => by omega, fun _ => ⟨_, rfl⟩⟩
    push_neg
    exact h

/-- C1: for every valid secp256k1 scalar, the address the program produces
is the serialization pipeline of `main.rs` lines 37-45: the 65-byte
uncompressed public point with its leading format byte dropped is X‖Y, the
64 bytes hashed; the address is the hex encoding, after "0x", of the last
20 bytes of the 32-byte Keccak-256 digest. -/
theorem c1_address_formula (c : Crypto) (k : Nat)
    (hx : (c.pubXY k).1.length = 32) (hy : (c.pubXY k).2.length = 32)
    (hk : (c.keccak256 ((c.pubXY k).1 ++ (c.pubXY k).2)).length = 32)
    (hv : 0 < k ∧ k < secpOrder) :
    (uncompressedPoint c.pubXY k).length = 65 ∧
    (uncompressedPoint c.pubXY k).drop 1 = (c.pubXY k).1 ++ (c.pubXY k).2 ∧
    toAddress c k = Except.ok ("0x" ++ hexEncode
      ((c.keccak256 ((c.pubXY k).1 ++ (c.pubXY k).2)).drop
        ((c.keccak256 ((c.pubXY k).1 ++ (c.pubXY k).2)).length - 20))) := by
  have hdrop : (uncompressedPoint c.pubXY k).drop 1 = (c.pubXY k).1 ++ (c.pubXY k).2 :=
    rfl
  refine ⟨?_, hdrop, ?_⟩
  · rw [uncompressedPoint, List.length_cons, List.length_append, hx, hy]
  · rw [toAddress, if_neg (by omega)]
    rw [hdrop, hk]

/-- Witness for C1 at scalar 1 under a concrete primitive bundle. -/
theorem c1_witness :
    (testCrypto.pubXY 1).1.length = 32 ∧ (testCrypto.pubXY 1).2.length = 32 ∧
    (testCrypto.keccak256 ((testCrypto.pubXY 1).1 ++ (testCrypto.pubXY 1).2)).length = 32 ∧
    (0 < 1 ∧ 1 < secpOrder) ∧
    ((uncompressedPoint testCrypto.pubXY 1).length = 65 ∧
      (uncompressedPoint testCrypto.pubXY 1).drop 1 =
        (testCrypto.pubXY 1).1 ++ (testCrypto.pubXY 1).2 ∧
      toAddress testCrypto 1 = Except.ok ("0x" ++ hexEncode
        ((testCrypto.keccak256 ((testCrypto.pubXY 1).1 ++ (testCrypto.pubXY 1).2)).drop
          ((testCrypto.keccak256 ((testCrypto.pubXY 1).1 ++ (testCrypto.pubXY 1).2)).length
            - 20)))) :=
  ⟨rfl, rfl, rfl, ⟨Nat.one_pos, by decide⟩,
    c1_address_formula testCrypto 1 rfl rfl rfl ⟨Nat.one_pos, by decide⟩⟩

theorem hexDigit_lowerHex : ∀ m, m < 16 → isLowerHex (hexDigit m) = true := by
  decide

/-- C9: every address string the Address Encoder produces is "0x" followed
by exactly 40 lowercase hexadecimal characters. -/
theorem c9_address_format (c : Crypto) (k : Nat) (a : String)
    (hk32 : ∀ l, (c.keccak256 l).length = 32)
    (hkb : ∀ l b, b ∈ c.keccak256 l → b < 256)
    (h : toAddress c k = Except.ok a) :
    a.data.length = 42 ∧ a.data.take 2 = ['0', 'x'] ∧
    (a.data.drop 2).length = 40 ∧ ∀ ch ∈ a.data.drop 2, isLowerHex ch = true := by
  by_cases hcond : k = 0 ∨ secpOrder ≤ k
  · rw [toAddress, if_pos hcond] at h
    exact absurd h (by simp)
  · rw [toAddress, if_neg hcond] at h
    have ha : a = "0x" ++ hexEncode
        ((c.keccak256 ((uncompressedPoint c.pubXY k).drop 1)).drop 12) := by
      injection h with h2
      exact h2.symm
    subst ha
    have hDlen : (c.keccak256 ((uncompressedPoint c.pubXY k).drop 1)).length = 32 :=
      hk32 _
    have htail :
        ((c.keccak256 ((uncompressedPoint c.pubXY k).drop 1)).drop 12).length = 20 := by
      rw [List.length_drop, hDlen]
    have hdata : ("0x" ++ hexEncode
        ((c.keccak256 ((uncompressedPoint c.pubXY k).drop 1)).drop 12)).data =
        '0' :: 'x' :: hexChars
          ((c.keccak256 ((uncompressedPoint c.pubXY k).drop 1)).drop 12) := by
      rw [String.data_append]
      rfl
    have hhex : (hexChars
        ((c.keccak256 ((uncompressedPoint c.pubXY k).drop 1)).drop 12)).length = 40 := by
      rw [hexChars, length_flatMap_uniform
        (fun b => [hexDigit (b / 16), hexDigit (b % 16)]) 2 _ (fun b _ => rfl), htail]
    rw [hdata]
    refine ⟨by rw [List.length_cons, List.length_cons, hhex], rfl, hhex, ?_⟩
    intro ch hch
    have hch2 : ch ∈ hexChars
        ((c.keccak256 ((uncompressedPoint c.pubXY k).drop 1)).drop 12) := hch
    rcases List.mem_flatMap.mp hch2 with ⟨b, hb, hmem⟩
    have hb256 : b < 256 := hkb _ b (List.drop_subset 12 _ hb)
    rcases List.mem_cons.mp hmem with rfl | hmem2
    · exact hexDigit_lowerHex (b / 16) (by omega)
    · rcases List.mem_cons.mp hmem2 with rfl | hmem3
      · exact hexDigit_lowerHex (b % 16) (by omega)
      · simp at hmem3

/-- Witness for C9 at scalar 1 under the concrete primitive bundle. -/
theorem c9_witness :
    (∀ l, (testCrypto.keccak256 l).length = 32) ∧
    (∀ l b, b ∈ testCrypto.keccak256 l → b < 256) ∧
    toAddress testCrypto 1 =
      Except.ok ("0x" ++ hexEncode ((List.range 32).drop 12)) ∧
    (("0x" ++ hexEncode ((List.range 32).drop 12)).data.length = 42 ∧
      ("0x" ++ hexEncode ((List.range 32).drop 12)).data.take 2 = ['0', 'x'] ∧
      (("0x" ++ hexEncode ((List.range 32).drop 12)).data.drop 2).length = 40 ∧
      ∀ ch ∈ ("0x" ++ hexEncode ((List.range 32).drop 12)).data.drop 2,
        isLowerHex ch = true) :=
  ⟨fun _ => rfl,
    fun l b hb => by
      have := List.mem_range.mp hb
      omega,
    rfl,
    c9_address_format testCrypto 1 _ (fun _ => rfl)
      (fun l b hb => by
        have := List.mem_range.mp hb
        omega)
      rfl⟩

/-- C6: every stage of the pipeline surfaces its failure to the run as that
exact typed error value and the run stops there — a run that yields an
address is one in which every stage succeeded, its values flowing stage to
stage, and a run in which any stage failed is an error naming the failing
stage's error, producing no address. -/
theorem c6_error_propagation (c : Crypto) (stream : Nat → Nat) :
    (∃ e, runPipeline c stream = Except.error e ∧
      (from_entropy c.sha256 (sampledEntropy stream) = Except.error e ∨
        ∃ w, from_entropy c.sha256 (sampledEntropy stream) = Except.ok w ∧
          (to_entropy c.sha256 w = Except.error e ∨
            ∃ hx, to_entropy c.sha256 w = Except.ok hx ∧
              (deriveChild c (to_seed c.hmac512 (phraseBytes c w) []) =
                  Except.error e ∨
                ∃ kc, deriveChild c (to_seed c.hmac512 (phraseBytes c w) []) =
                    Except.ok kc ∧
                  toAddress c kc.1 = Except.error e)))) ∨
    (∃ out, runPipeline c stream = Except.ok out ∧
      from_entropy c.sha256 (sampledEntropy stream) = Except.ok out.words ∧
      to_entropy c.sha256 out.words = Except.ok out.entropyHex ∧
      out.seed = to_seed c.hmac512 (phraseBytes c out.words) [] ∧
      deriveChild c out.seed = Except.ok out.childKey ∧
      toAddress c out.childKey.1 = Except.ok out.address) := by
  rw [runPipeline]
  cases h1 : from_entropy c.sha256 (sampledEntropy stream) with
  | error e =>
    refine Or.inl ⟨e, ?_, Or.inl rfl⟩
    simp only [runFrom, h1]
  | ok w =>
    cases h2 : to_entropy c.sha256 w with
    | error e =>
      refine Or.inl ⟨e, ?_, Or.inr ⟨w, rfl, Or.inl h2⟩⟩
      simp only [runFrom, h1, h2]
    | ok hx =>
      cases h3 : deriveChild c (to_seed c.hmac512 (phraseBytes c w) []) with
      | error e =>
        refine Or.inl ⟨e, ?_, Or.inr ⟨w, rfl, Or.inr ⟨hx, h2, Or.inl h3⟩⟩⟩
        simp only [runFrom, h1, h2, h3]
      | ok kc =>
        cases h4 : toAddress c kc.1 with
        | error e =>
          refine Or.inl ⟨e, ?_,
            Or.inr ⟨w, rfl, Or.inr ⟨hx, h2, Or.inr ⟨kc, h3, h4⟩⟩⟩⟩
          simp only [runFrom, h1, h2, h3, h4]
        | ok addr =>
          refine Or.inr ⟨⟨printedEntropy stream, w, hx,
            to_seed c.hmac512 (phraseBytes c w) [], kc, addr⟩, ?_, ?_, ?_, ?_, ?_, ?_⟩
          · simp only [runFrom, h1, h2, h3, h4]
          · dsimp only
          · dsimp only
            exact h2
          · dsimp only
          · dsimp only
            exact h3
          · dsimp only
            exact h4

/-- C8: the run is a function of the 28 stream bytes the program draws — a
change of the stream past them changes nothing — so `to_seed` and `derive`
and every stage past entropy sampling are pure functions of their inputs,
identical across repeated calls on equal arguments. -/
theorem c8_determinism (c : Crypto) (pre post1 post2 : Nat → Nat) :
    runPipeline c (splice 28 pre post1) = runPipeline c (splice 28 pre post2) := by
  have hp : printedEntropy (splice 28 pre post1) =
      printedEntropy (splice 28 pre post2) := by
    refine List.map_congr_left fun i hi => ?_
    have h12 : i < 12 := List.mem_range.mp hi
    rw [splice, splice, if_pos (show i < 28 by omega), if_pos (show i < 28 by omega)]
  have hs : sampledEntropy (splice 28 pre post1) =
      sampledEntropy (splice 28 pre post2) := by
    refine List.map_congr_left fun i hi => ?_
    have h16 : i < 16 := List.mem_range.mp hi
    rw [splice, splice, if_pos (show 12 + i < 28 by omega),
      if_pos (show 12 + i < 28 by omega)]
  rw [runPipeline, runPipeline, hp, hs]

theorem runFrom_address_printed (c : Crypto) (p1 p2 entropy : List Nat) :
    Except.map (fun out : RunOutput => out.address) (runFrom c p1 entropy) =
      Except.map (fun out : RunOutput => out.address) (runFrom c p2 entropy) := by
  cases h1 : from_entropy c.sha256 entropy with
  | error e => simp only [runFrom, h1]
  | ok w =>
    cases h2 : to_entropy c.sha256 w with
    | error e => simp only [runFrom, h1, h2]
    | ok hx =>
      cases h3 : deriveChild c (to_seed c.hmac512 (phraseBytes c w) []) with
      | error e => simp only [runFrom, h1, h2, h3]
      | ok kc =>
        cases h4 : toAddress c kc.1 with
        | error e => simp only [runFrom, h1, h2, h3, h4]
        | ok addr => simp only [runFrom, h1, h2, h3, h4, Except.map]

/-- C10: the address is a deterministic function of the mnemonic alone —
swapping the first 12 stream bytes (the printed "Entropy:" array) never
changes the address outcome, and every successful run's address is
`addressFromWords` of its words, the function hardcoding the empty
passphrase and the path m/44'/60'/0'/0/0. -/
theorem c10_address_from_mnemonic (c : Crypto) (pre1 pre2 post stream : Nat → Nat) :
    Except.map (fun out : RunOutput => out.address)
        (runPipeline c (splice 12 pre1 post)) =
      Except.map (fun out : RunOutput => out.address)
        (runPipeline c (splice 12 pre2 post)) ∧
    ((∃ e, runPipeline c stream = Except.error e) ∨
      (∃ out, runPipeline c stream = Except.ok out ∧
        addressFromWords c out.words = Except.ok out.address)) := by
  constructor
  · have hs : sampledEntropy (splice 12 pre1 post) =
        sampledEntropy (splice 12 pre2 post) := by
      refine List.map_congr_left fun i hi => ?_
      rw [splice, splice, if_neg (show ¬ 12 + i < 12 by omega),
        if_neg (show ¬ 12 + i < 12 by omega)]
    rw [runPipeline, runPipeline, hs]
    exact runFrom_address_printed c _ _ _
  · rw [runPipeline]
    cases h1 : from_entropy c.sha256 (sampledEntropy stream) with
    | error e => exact Or.inl ⟨e, by simp only [runFrom, h1]⟩
    | ok w =>
      cases h2 : to_entropy c.sha256 w with
      | error e => exact Or.inl ⟨e, by simp only [runFrom, h1, h2]⟩
      | ok hx =>
        cases h3 : deriveChild c (to_seed c.hmac512 (phraseBytes c w) []) with
        | error e => exact Or.inl ⟨e, by simp only [runFrom, h1, h2, h3]⟩
        | ok kc =>
          cases h4 : toAddress c kc.1 with
          | error e => exact Or.inl ⟨e, by simp only [runFrom, h1, h2, h3, h4]⟩
          | ok addr =>
            refine Or.inr ⟨⟨printedEntropy stream, w, hx,
              to_seed c.hmac512 (phraseBytes c w) [], kc, addr⟩, ?_, ?_⟩
            · simp only [runFrom, h1, h2, h3, h4]
            · dsimp only
              simp only [addressFromWords, h3, h4]

/-- C2 (divergence of the code from the claim): the bytes printed as
"Entropy:" are the first 12 stream bytes, while the mnemonic is generated
from the next 16 — the two are different values of different lengths on
every stream (here the stream 0,1,2,...), and 12 is not even a
standardized entropy length, so the Mnemonic Codec does not consume the
Entropy Source stage's printed output. -/
theorem c2_entropy_divergence :
    (printedEntropy (fun i => i)).length = 12 ∧
    (sampledEntropy (fun i => i)).length = 16 ∧
    printedEntropy (fun i => i) ≠ sampledEntropy (fun i => i) ∧
    validEntropyLen (printedEntropy (fun i => i)).length = false :=
  ⟨rfl, rfl, by decide, rfl⟩

end AddrDeriv
